import Mathlib

/-!
Verification of `staticlib_containers`: a shallow embedding in Lean 4 of the
two queue types of the repository,

* `producer_consumer_queue` (src/include/staticlib/containers/producer_consumer_queue.hpp):
  a fixed-capacity SPSC ring buffer over raw storage with two 32-bit unsigned
  cursors, and
* `blocking_queue` (src/include/staticlib/containers/blocking_queue.hpp):
  an optionally bounded FIFO deque guarded by a mutex.

Each C++ member function is translated into a pure Lean function on an explicit
state record.  Machine integers are modelled as `Nat`/`Int` with explicit
`% 2^32` (`unsigned int` cursors) and `% 2^64` (`size_t` results) where the C++
arithmetic can wrap; the `int` intermediate of `size_guess` is modelled through
a two's-complement conversion `toInt32`.  Since all public operations of the
blocking queue run under one mutex, and the ring buffer is verified for its
sequential (interference-free) transition semantics, the embedding is a
sequential state-transition system.
-/

namespace StaticlibContainers

/-- Width constant for `unsigned int` / `uint32_t` arithmetic. -/
def U32 : Nat := 2 ^ 32

/-- Width constant for `size_t` (64-bit platform) arithmetic. -/
def U64 : Nat := 2 ^ 64

/-- Two's-complement reinterpretation of a 32-bit unsigned value as `int`,
as happens in C++ when an `unsigned int` expression is stored into an `int`. -/
def toInt32 (u : Nat) : Int :=
  if u < 2 ^ 31 then (u : Int) else (u : Int) - (U32 : Int)

/-- Conversion of an `int` value to `size_t` (64-bit), as happens on
`return ret;` in `size_guess`. A negative `int` wraps modulo `2^64`. -/
def intToSizeT (i : Int) : Nat := (i % (U64 : Int)).toNat

/-! ## `producer_consumer_queue` (SPSC ring buffer)

State of `producer_consumer_queue<T>`: `size_` is the stored capacity
(constructor argument plus one, in `uint32_t` arithmetic), `records_` the raw
slot storage (we record the last value written to every slot; which slots hold
live elements is determined by the cursors), `readIndex_` and `writeIndex_`
the two `std::atomic<unsigned int>` cursors. -/
structure producer_consumer_queue (α : Type) where
  size_ : Nat
  records_ : Nat → α
  readIndex_ : Nat
  writeIndex_ : Nat

namespace producer_consumer_queue

variable {α : Type}

/-- Constructor `producer_consumer_queue(uint32_t size)`: stores `size + 1`
(in `uint32_t` arithmetic) and zero cursors.  The raw `malloc`ed storage is
uninitialized: it is modelled by an arbitrary garbage function `g`. -/
def mk' (size : Nat) (g : Nat → α) : producer_consumer_queue α :=
  { size_ := (size + 1) % U32, records_ := g, readIndex_ := 0, writeIndex_ := 0 }

/-- `emplace(args...)`: compute `nextRecord = currentWrite + 1` (unsigned),
reset to `0` when it equals `size_`; if it differs from `readIndex_`,
construct the element at slot `currentWrite` and publish `nextRecord` as the
new write cursor, returning `true`; otherwise the queue is full and `false`
is returned with no side effect. -/
def emplace (q : producer_consumer_queue α) (v : α) :
    Bool × producer_consumer_queue α :=
  let currentWrite := q.writeIndex_
  let nextRecord0 := (currentWrite + 1) % U32
  let nextRecord := if nextRecord0 = q.size_ then 0 else nextRecord0
  if nextRecord ≠ q.readIndex_ then
    (true,
      { q with
        records_ := fun i => if i = currentWrite then v else q.records_ i,
        writeIndex_ := nextRecord })
  else
    (false, q)

/-- `poll(record&)`: if `readIndex_ = writeIndex_` the queue is empty and
`false` is returned (`none` here); otherwise the front slot's value is moved
out, the slot destroyed, and the incremented (wrapping) read cursor is
published.  The moved-out value is returned in place of the C++ out-parameter. -/
def poll (q : producer_consumer_queue α) :
    Option α × producer_consumer_queue α :=
  let currentRead := q.readIndex_
  if currentRead = q.writeIndex_ then
    (none, q)
  else
    let nextRecord0 := (currentRead + 1) % U32
    let nextRecord := if nextRecord0 = q.size_ then 0 else nextRecord0
    (some (q.records_ currentRead), { q with readIndex_ := nextRecord })

/-- `front_ptr()`: the front element (as an optional value rather than a
pointer), `none` when empty. -/
def front_ptr (q : producer_consumer_queue α) : Option α :=
  if q.readIndex_ = q.writeIndex_ then none else some (q.records_ q.readIndex_)

/-- `is_empty()`: cursor equality. -/
def is_empty (q : producer_consumer_queue α) : Bool :=
  q.readIndex_ = q.writeIndex_

/-- `is_full()`: the incremented (wrapping) write cursor equals the read
cursor. -/
def is_full (q : producer_consumer_queue α) : Bool :=
  let nextRecord0 := (q.writeIndex_ + 1) % U32
  let nextRecord := if nextRecord0 = q.size_ then 0 else nextRecord0
  nextRecord = q.readIndex_

/-- `size_guess()`: `int ret = writeIndex_ - readIndex_` (the subtraction is
32-bit unsigned, the store into `int` a two's-complement reinterpretation);
if `ret < 0` then `ret += size_` (again unsigned 32-bit arithmetic, stored
back into `int`); the final `return ret` converts the `int` to `size_t`. -/
def size_guess (q : producer_consumer_queue α) : Nat :=
  let u := (q.writeIndex_ % U32 + U32 - q.readIndex_ % U32) % U32
  let ret := toInt32 u
  let ret' := if ret < 0 then toInt32 ((u + q.size_) % U32) else ret
  intToSizeT ret'

/-- `max_size()`: `size_ - 1` in `size_t` arithmetic. -/
def max_size (q : producer_consumer_queue α) : Nat :=
  (q.size_ + U64 - 1) % U64

/-- The destructor's drain loop
`while (read != end) { records_[read].~T(); if (++read == size_) read = 0; }`,
with an explicit fuel (the loop performs at most `size_ - 1` iterations from
any state with in-range cursors); returns the list of slot indices destroyed,
in loop order. -/
def destroyLoop (s : Nat) : Nat → Nat → Nat → List Nat
  | 0, _, _ => []
  | fuel + 1, read, end_ =>
    if read = end_ then []
    else read :: destroyLoop s fuel (if read + 1 = s then 0 else read + 1) end_

/-- Slot indices destroyed by `~producer_consumer_queue()`, in order. -/
def destroyedSlots (q : producer_consumer_queue α) : List Nat :=
  destroyLoop q.size_ q.size_ q.readIndex_ q.writeIndex_

/-- Iterate `emplace` with a fixed value `v`, `k` times, keeping only the
state. -/
def emplaceRep (v : α) : Nat → producer_consumer_queue α → producer_consumer_queue α
  | 0, q => q
  | k + 1, q => emplaceRep v k (emplace q v).2

end producer_consumer_queue

end StaticlibContainers

namespace StaticlibContainers
namespace producer_consumer_queue

variable {α : Type}

/-- After `k ≤ size` emplaces on a freshly constructed queue (capacity
`size + 1 < 2^32`), the read cursor is still `0` and the write cursor is `k`. -/
theorem emplaceRep_fresh (size : Nat) (g : Nat → α) (v : α)
    (hs : size + 1 < U32) :
    ∀ k, k ≤ size →
      (emplaceRep v k (mk' size g)).size_ = size + 1 ∧
      (emplaceRep v k (mk' size g)).readIndex_ = 0 ∧
      (emplaceRep v k (mk' size g)).writeIndex_ = k := by
  have hsz : (size + 1) % U32 = size + 1 := Nat.mod_eq_of_lt hs
  -- strengthen to an arbitrary start state with the right cursors
  suffices H : ∀ k (q : producer_consumer_queue α) (j : Nat),
      q.size_ = size + 1 → q.readIndex_ = 0 → q.writeIndex_ = j →
      j + k ≤ size →
      (emplaceRep v k q).size_ = size + 1 ∧
      (emplaceRep v k q).readIndex_ = 0 ∧
      (emplaceRep v k q).writeIndex_ = j + k by
    intro k hk
    have := H k (mk' size g) 0 (by simp [mk', hsz]) (by simp [mk']) (by simp [mk'])
      (by omega)
    simpa using this
  intro k
  induction k with
  | zero => intro q j h1 h2 h3 _; simpa [emplaceRep] using ⟨h1, h2, h3⟩
  | succ k ih =>
    intro q j h1 h2 h3 hjk
    have hj1 : (j + 1) % U32 = j + 1 := Nat.mod_eq_of_lt (by omega)
    have hne : (j + 1) ≠ size + 1 := by omega
    have hstep : (emplace q v).2.size_ = size + 1 ∧
        (emplace q v).2.readIndex_ = 0 ∧ (emplace q v).2.writeIndex_ = j + 1 := by
      simp only [emplace, h1, h2, h3, hj1]
      rw [if_neg hne]
      have : (j + 1 : Nat) ≠ 0 := by omega
      rw [if_pos this]
      exact ⟨rfl, rfl, rfl⟩
    have := ih (emplace q v).2 (j + 1) hstep.1 hstep.2.1 hstep.2.2 (by omega)
    simp only [emplaceRep]
    exact ⟨this.1, this.2.1, by rw [this.2.2]; omega⟩

/-- C2: a `producer_consumer_queue` constructed with requested capacity
`N ≥ 1` (with `N + 1` representable in `uint32_t`), starting empty, returns
`true` for exactly the first `N` consecutive `emplace` calls, `false` for the
`(N+1)`th, and after one successful `poll` a further `emplace` succeeds
again. -/
theorem capacity_boundary (N : Nat) (g : Nat → Nat) (v : Nat)
    (h1 : 1 ≤ N) (h2 : N + 1 < U32) :
    (∀ k, k < N → (emplace (emplaceRep v k (mk' N g)) v).1 = true) ∧
    (emplace (emplaceRep v N (mk' N g)) v).1 = false ∧
    (poll (emplaceRep v N (mk' N g))).1.isSome = true ∧
    (emplace (poll (emplaceRep v N (mk' N g))).2 v).1 = true := by
  refine ⟨?_, ?_, ?_, ?_⟩
  · intro k hk
    obtain ⟨hsz, hr, hw⟩ := emplaceRep_fresh N g v h2 k (by omega)
    have hk1 : (k + 1) % U32 = k + 1 := Nat.mod_eq_of_lt (by omega)
    simp only [emplace, hsz, hr, hw, hk1]
    rw [if_neg (by omega : (k + 1 : Nat) ≠ N + 1)]
    rw [if_pos (by omega : (k + 1 : Nat) ≠ 0)]
  · obtain ⟨hsz, hr, hw⟩ := emplaceRep_fresh N g v h2 N le_rfl
    have hN1 : (N + 1) % U32 = N + 1 := Nat.mod_eq_of_lt h2
    simp only [emplace, hsz, hr, hw, hN1, if_pos rfl]
    simp
  · obtain ⟨hsz, hr, hw⟩ := emplaceRep_fresh N g v h2 N le_rfl
    simp only [poll, hr, hw]
    rw [if_neg (by omega : (0 : Nat) ≠ N)]
    rfl
  · obtain ⟨hsz, hr, hw⟩ := emplaceRep_fresh N g v h2 N le_rfl
    have h01 : (0 + 1) % U32 = 1 := Nat.mod_eq_of_lt (by omega)
    have hN1 : (N + 1) % U32 = N + 1 := Nat.mod_eq_of_lt h2
    simp only [poll, hr, hw]
    rw [if_neg (by omega : (0 : Nat) ≠ N)]
    simp only [emplace, h01, hsz, hw, hN1, if_pos rfl]
    simp [show ¬ N = 0 by omega]

/-- Witness for `capacity_boundary` at `N = 3`. -/
theorem capacity_boundary_witness :
    (1 ≤ 3 ∧ 3 + 1 < U32) ∧
    ((∀ k, k < 3 →
        (emplace (emplaceRep 7 k (mk' 3 (fun _ => 0))) 7).1 = true) ∧
      (emplace (emplaceRep 7 3 (mk' 3 (fun _ => 0))) 7).1 = false ∧
      (poll (emplaceRep 7 3 (mk' 3 (fun _ => 0)))).1.isSome = true ∧
      (emplace (poll (emplaceRep 7 3 (mk' 3 (fun _ => 0)))).2 7).1 = true) :=
  ⟨⟨by norm_num, by norm_num [U32]⟩,
    capacity_boundary 3 (fun _ => 0) 7 (by norm_num) (by norm_num [U32])⟩

/-- C8: when the ring buffer is full (the slot after the write cursor equals
the read cursor, which is exactly what `is_full` computes), `emplace` returns
`false` and has no side effect at all: the state — both cursors and the whole
slot storage — is returned unchanged. -/
theorem emplace_on_full {α : Type} (q : producer_consumer_queue α) (v : α)
    (h : is_full q = true) :
    emplace q v = (false, q) := by
  simp only [is_full, decide_eq_true_eq] at h
  simp [emplace, h]

/-- Witness for `emplace_on_full`: a concrete full queue (capacity 2,
one element, `read = 0`, `write = 1`). -/
theorem emplace_on_full_witness :
    is_full (⟨2, fun _ => (0 : Nat), 0, 1⟩ : producer_consumer_queue Nat) = true ∧
    emplace (⟨2, fun _ => (0 : Nat), 0, 1⟩ : producer_consumer_queue Nat) 5 =
      (false, (⟨2, fun _ => (0 : Nat), 0, 1⟩ : producer_consumer_queue Nat)) :=
  ⟨by norm_num [is_full, U32], emplace_on_full _ 5 (by norm_num [is_full, U32])⟩

/-- C10: a `producer_consumer_queue` constructed with requested size `0`
(below the spec's minimum of 1) is permanently unusable rather than an error:
`max_size()` is `0`, `is_full()` is `true`, and every `emplace` returns
`false` with the state completely unchanged (so any number of repeated
`emplace` calls leaves the queue in its construction state). -/
theorem size_zero_unusable {α : Type} (g : Nat → α) (v : α) :
    max_size (mk' 0 g) = 0 ∧
    is_full (mk' 0 g) = true ∧
    (∀ w : α, emplace (mk' 0 g) w = (false, mk' 0 g)) ∧
    (∀ k, emplaceRep v k (mk' 0 g) = mk' 0 g) := by
  have hemp : ∀ w : α, emplace (mk' 0 g) w = (false, mk' 0 g) := by
    intro w
    simp only [emplace, mk']
    norm_num [U32]
  refine ⟨?_, ?_, hemp, ?_⟩
  · simp only [max_size, mk']
    norm_num [U32, U64]
  · simp only [is_full, mk']
    norm_num [U32]
  · intro k
    induction k with
    | zero => rfl
    | succ k ih => simp only [emplaceRep, hemp, ih]

end producer_consumer_queue
end StaticlibContainers

namespace StaticlibContainers

/-! ## `blocking_queue` (mutex-guarded MPMC queue)

State of `blocking_queue<T>`: the `std::deque<T> delegate` (a Lean list, front
at the head), the `size_t max_size` bound (`0` = unbounded) and the `bool
blocking` flag.  The mutex and condition variable have no state visible to the
sequential semantics: every public method runs under the single mutex, so each
is one atomic state transition; `notify_all` has no effect on the queue state
itself. -/
structure blocking_queue (α : Type) where
  delegate : List α
  max_size : Nat
  blocking : Bool

namespace blocking_queue

variable {α : Type}

/-- Constructor `blocking_queue(size_t max_size = 0)`: empty deque, given
bound, `blocking = true`. -/
def mk' (max_size : Nat) : blocking_queue α :=
  { delegate := [], max_size := max_size, blocking := true }

/-- `emplace(args...)`: if unbounded (`max_size == 0`) or the current length
is below `max_size`, append at the tail and return `true`; otherwise return
`false` with no mutation.  (`notify_all` does not change the queue state.) -/
def emplace (q : blocking_queue α) (v : α) : Bool × blocking_queue α :=
  let size := q.delegate.length
  if q.max_size = 0 ∨ size < q.max_size then
    (true, { q with delegate := q.delegate ++ [v] })
  else
    (false, q)

/-- Loop body of the rvalue-reference `emplace_range` overload: the local
`size` starts at `delegate.size()` and is incremented after every
`emplace_back`; the loop `break`s as soon as the bound check fails.  Returns
the final deque and the final value of `size`. -/
def emplace_range_rvalue_loop (ms : Nat) :
    List α → Nat → List α → List α × Nat
  | d, size, [] => (d, size)
  | d, size, el :: rest =>
    if ms = 0 ∨ size < ms then
      emplace_range_rvalue_loop ms (d ++ [el]) (size + 1) rest
    else
      (d, size)

/-- `emplace_range(Range&& range)` (rvalue overload): runs the loop above and
returns `delegate.size() - size` in `size_t` arithmetic, together with the new
state. -/
def emplace_range_rvalue (q : blocking_queue α) (range : List α) :
    Nat × blocking_queue α :=
  let p := emplace_range_rvalue_loop q.max_size q.delegate q.delegate.length range
  ((p.1.length % U64 + U64 - p.2 % U64) % U64, { q with delegate := p.1 })

/-- Loop body of the lvalue-reference `emplace_range` overload: the bound
check re-reads `delegate.size()` each iteration; `break` on failure. -/
def emplace_range_lvalue_loop (ms : Nat) : List α → List α → List α
  | d, [] => d
  | d, el :: rest =>
    if ms = 0 ∨ d.length < ms then
      emplace_range_lvalue_loop ms (d ++ [el]) rest
    else
      d

/-- `emplace_range(Range& range)` (lvalue overload): runs the loop above and
returns `delegate.size() - origin_size` in `size_t` arithmetic, together with
the new state. -/
def emplace_range_lvalue (q : blocking_queue α) (range : List α) :
    Nat × blocking_queue α :=
  let d := emplace_range_lvalue_loop q.max_size q.delegate range
  ((d.length % U64 + U64 - q.delegate.length % U64) % U64,
    { q with delegate := d })

/-- `poll(record&)`: pop the head if non-empty, else return `false` (`none`)
immediately. -/
def poll (q : blocking_queue α) : Option α × blocking_queue α :=
  match q.delegate with
  | [] => (none, q)
  | v :: rest => (some v, { q with delegate := rest })

/-- The drain loop of `consume(func)`: pops the head and counts until the
deque is empty.  (The visitor receives the values; it cannot touch the queue,
which stays locked.) -/
def consume_loop : List α → Nat → Nat × List α
  | [], count => (count, [])
  | _ :: rest, count => consume_loop rest (count + 1)

/-- `consume(func)`: drains the whole deque under one lock acquisition,
returning the number of elements consumed. -/
def consume (q : blocking_queue α) : Nat × blocking_queue α :=
  let p := consume_loop q.delegate 0
  (p.1, { q with delegate := p.2 })

/-- The wait predicate of `take`:
`[this] { return !this->blocking || !this->delegate.empty(); }`. -/
def take_wait_pred (q : blocking_queue α) : Bool :=
  !q.blocking || !q.delegate.isEmpty

/-- `take(record&, timeout)`: pop the head immediately if non-empty; else
wait on the condition variable with `take_wait_pred` and re-check.  In the
sequential (interference-free) semantics the wait changes no state, so the
re-check sees the same deque; the timeout only bounds the physical wait and
has no effect on the resulting state. -/
def take (q : blocking_queue α) : Option α × blocking_queue α :=
  match q.delegate with
  | v :: rest => (some v, { q with delegate := rest })
  | [] =>
    -- `empty_cv.wait[_for](lock, predicate)` : no state change without
    -- concurrent interference; then the post-wait re-check runs:
    match q.delegate with
    | v :: rest => (some v, { q with delegate := rest })
    | [] => (none, q)

/-- `unblock()`: set `blocking` to `false` (the conditional `notify_all` does
not change the queue state). -/
def unblock (q : blocking_queue α) : blocking_queue α :=
  { q with blocking := false }

/-- `is_blocking()`. -/
def is_blocking (q : blocking_queue α) : Bool :=
  q.blocking

/-- `is_empty()`. -/
def is_empty (q : blocking_queue α) : Bool :=
  q.delegate.isEmpty

/-- `is_full()`: `false` when unbounded, else `delegate.size() >= max_size`. -/
def is_full (q : blocking_queue α) : Bool :=
  if q.max_size = 0 then false else q.max_size ≤ q.delegate.length

/-- `size()`. -/
def size (q : blocking_queue α) : Nat :=
  q.delegate.length

/-- One public operation of `blocking_queue`, for quantifying over call
sequences.  `qry` stands for any of the query methods (`is_blocking`,
`is_empty`, `is_full`, `size`, `front_ptr`), none of which mutates state. -/
inductive BOp (α : Type) where
  | emp (v : α)
  | empRangeRv (range : List α)
  | empRangeLv (range : List α)
  | pol
  | tak
  | con
  | unb
  | qry

/-- State transition of one public operation. -/
def applyBOp (q : blocking_queue α) : BOp α → blocking_queue α
  | .emp v => (emplace q v).2
  | .empRangeRv r => (emplace_range_rvalue q r).2
  | .empRangeLv r => (emplace_range_lvalue q r).2
  | .pol => (poll q).2
  | .tak => (take q).2
  | .con => (consume q).2
  | .unb => unblock q
  | .qry => q

/-- State after a sequence of public operations. -/
def applyBOps (q : blocking_queue α) (ops : List (BOp α)) : blocking_queue α :=
  ops.foldl applyBOp q

/-- No public operation ever turns the `blocking` flag back on. -/
theorem applyBOp_blocking_mono (q : blocking_queue α) (op : BOp α)
    (h : q.blocking = false) : (applyBOp q op).blocking = false := by
  cases op with
  | emp v =>
    simp only [applyBOp, emplace]
    split <;> simpa
  | empRangeRv r => simpa [applyBOp, emplace_range_rvalue]
  | empRangeLv r => simpa [applyBOp, emplace_range_lvalue]
  | pol =>
    simp only [applyBOp, poll]
    cases q.delegate <;> simpa
  | tak =>
    simp only [applyBOp, take]
    cases q.delegate <;> simpa
  | con => simpa [applyBOp, consume]
  | unb => simp [applyBOp, unblock]
  | qry => simpa [applyBOp]

/-- C6: the blocking flag is `true` at construction and monotonic: after any
`unblock()`, `is_blocking()` is `false` and stays `false` under every
subsequent sequence of public operations. -/
theorem blocking_flag_monotone (K : Nat) (q : blocking_queue α)
    (ops : List (BOp α)) :
    is_blocking (mk' K : blocking_queue α) = true ∧
    is_blocking (applyBOps (unblock q) ops) = false := by
  constructor
  · rfl
  · suffices H : ∀ (ops : List (BOp α)) (p : blocking_queue α),
        p.blocking = false → (applyBOps p ops).blocking = false by
      exact H ops (unblock q) rfl
    intro ops
    induction ops with
    | nil => intro p hp; simpa [applyBOps]
    | cons op rest ih =>
      intro p hp
      simpa [applyBOps, List.foldl_cons] using
        ih (applyBOp p op) (applyBOp_blocking_mono p op hp)

/-- Iterate `emplace` with a fixed value, keeping only the state. -/
def emplaceRep (v : α) : Nat → blocking_queue α → blocking_queue α
  | 0, q => q
  | k + 1, q => emplaceRep v k (emplace q v).2

/-- After `k ≤ K` emplaces on a fresh queue with bound `K ≥ 1`, the deque
holds `k` copies of the value. -/
theorem emplaceRep_replicate (K : Nat) (v : α) (_hK : 1 ≤ K) :
    ∀ k, k ≤ K →
      emplaceRep v k (mk' K) =
        { delegate := List.replicate k v, max_size := K, blocking := true } := by
  suffices H : ∀ k (q : blocking_queue α) (j : Nat),
      q = { delegate := List.replicate j v, max_size := K, blocking := true } →
      j + k ≤ K →
      emplaceRep v k q =
        { delegate := List.replicate (j + k) v, max_size := K,
          blocking := true } by
    intro k hk
    simpa using H k (mk' K) 0 rfl (by omega)
  intro k
  induction k with
  | zero => intro q j hq _; simpa [emplaceRep] using hq
  | succ k ih =>
    intro q j hq hjk
    have hstep : (emplace q v).2 =
        { delegate := List.replicate (j + 1) v, max_size := K,
          blocking := true } := by
      subst hq
      simp only [emplace, List.length_replicate]
      rw [if_pos (Or.inr (by omega))]
      simp [List.replicate_succ']
    rw [emplaceRep, hstep, ih _ (j + 1) rfl (by omega),
      show j + 1 + k = j + (k + 1) from by omega]

/-- C4: a `blocking_queue` constructed with bound `K ≥ 1`, starting empty,
returns `true` for exactly the first `K` `emplace` calls, returns `false` for
the `(K+1)`th with the queue state (contents included) unchanged, and after
one successful `poll` a further `emplace` succeeds again. -/
theorem bounded_capacity (K : Nat) (v : α) (hK : 1 ≤ K) :
    (∀ k, k < K → (emplace (emplaceRep v k (mk' K)) v).1 = true) ∧
    emplace (emplaceRep v K (mk' K)) v = (false, emplaceRep v K (mk' K)) ∧
    (poll (emplaceRep v K (mk' K))).1.isSome = true ∧
    (emplace (poll (emplaceRep v K (mk' K))).2 v).1 = true := by
  have hfull := emplaceRep_replicate K v hK K le_rfl
  refine ⟨?_, ?_, ?_, ?_⟩
  · intro k hk
    rw [emplaceRep_replicate K v hK k (by omega)]
    simp only [emplace, List.length_replicate]
    rw [if_pos (Or.inr hk)]
  · rw [hfull]
    simp only [emplace, List.length_replicate]
    rw [if_neg (by omega)]
  · rw [hfull]
    obtain ⟨K', rfl⟩ : ∃ K', K = K' + 1 := ⟨K - 1, by omega⟩
    simp [poll, List.replicate_succ]
  · rw [hfull]
    obtain ⟨K', rfl⟩ : ∃ K', K = K' + 1 := ⟨K - 1, by omega⟩
    simp only [poll, List.replicate_succ]
    simp only [emplace, List.length_replicate]
    rw [if_pos (Or.inr (by omega))]

/-- Witness for `bounded_capacity` at `K = 2`, `v = 9`. -/
theorem bounded_capacity_witness :
    (1 ≤ 2) ∧
    ((∀ k, k < 2 → (emplace (emplaceRep 9 k (mk' 2)) 9).1 = true) ∧
      emplace (emplaceRep 9 2 (mk' 2)) 9 = (false, emplaceRep 9 2 (mk' 2)) ∧
      (poll (emplaceRep 9 2 (mk' 2))).1.isSome = true ∧
      (emplace (poll (emplaceRep 9 2 (mk' 2))).2 9).1 = true) :=
  ⟨by norm_num, bounded_capacity 2 9 (by norm_num)⟩

/-- C7: on an unblocked queue (`blocking = false`), a `take` on an empty
deque finds its wait predicate immediately satisfied and returns `false`
(`none`) with the state unchanged; on a non-empty deque, `take` still pops
and returns the head element. -/
theorem take_unblocked (q : blocking_queue α) (h : q.blocking = false) :
    (q.delegate = [] → take_wait_pred q = true ∧ take q = (none, q)) ∧
    (∀ v rest, q.delegate = v :: rest →
      take q = (some v, { q with delegate := rest })) := by
  constructor
  · intro hd
    constructor
    · simp [take_wait_pred, h]
    · simp [take, hd]
  · intro v rest hd
    simp [take, hd]

/-- Witness for `take_unblocked`: an empty unblocked queue and a non-empty
unblocked queue. -/
theorem take_unblocked_witness :
    (take_wait_pred (⟨[], 0, false⟩ : blocking_queue Nat) = true ∧
      take (⟨[], 0, false⟩ : blocking_queue Nat) = (none, ⟨[], 0, false⟩)) ∧
    take (⟨[5, 6], 0, false⟩ : blocking_queue Nat) =
      (some 5, ⟨[6], 0, false⟩) :=
  ⟨(take_unblocked (⟨[], 0, false⟩ : blocking_queue Nat) rfl).1 rfl,
    (take_unblocked (⟨[5, 6], 0, false⟩ : blocking_queue Nat) rfl).2 5 [6] rfl⟩

/-- C1 (divergence witness): on an unbounded empty queue, the rvalue-range
`emplace_range` overload appends all of `[1, 2, 3]` (in order) but returns
`0`, because its local `size` counter is incremented in step with
`delegate.size()`; the lvalue-range overload on the same input returns `3` as
documented. -/
theorem emplace_range_rvalue_returns_zero :
    emplace_range_rvalue (mk' 0 : blocking_queue Nat) [1, 2, 3] =
      (0, { delegate := [1, 2, 3], max_size := 0, blocking := true }) ∧
    emplace_range_lvalue (mk' 0 : blocking_queue Nat) [1, 2, 3] =
      (3, { delegate := [1, 2, 3], max_size := 0, blocking := true }) := by
  constructor
  · simp [emplace_range_rvalue, emplace_range_rvalue_loop, mk', U64]
  · simp [emplace_range_lvalue, emplace_range_lvalue_loop, mk', U64]

end blocking_queue
end StaticlibContainers

namespace StaticlibContainers
namespace producer_consumer_queue

variable {α : Type}

/-- States reachable from construction with requested size `n` (and garbage
storage `g`) by any interleaving of `emplace` and `poll`. -/
inductive Reach (n : Nat) (g : Nat → α) : producer_consumer_queue α → Prop
  | init : Reach n g (mk' n g)
  | emp {q : producer_consumer_queue α} (v : α) :
      Reach n g q → Reach n g (emplace q v).2
  | pol {q : producer_consumer_queue α} :
      Reach n g q → Reach n g (poll q).2

/-- `emplace` keeps `size_` fixed and both cursors inside `[0, size_)`. -/
theorem emplace_bounds (q : producer_consumer_queue α) (v : α)
    (hs : q.size_ < U32) (h2 : q.readIndex_ < q.size_)
    (h3 : q.writeIndex_ < q.size_) :
    (emplace q v).2.size_ = q.size_ ∧
    (emplace q v).2.readIndex_ < q.size_ ∧
    (emplace q v).2.writeIndex_ < q.size_ := by
  have hw1 : (q.writeIndex_ + 1) % U32 = q.writeIndex_ + 1 :=
    Nat.mod_eq_of_lt (by omega)
  simp only [emplace, hw1]
  by_cases heq : q.writeIndex_ + 1 = q.size_
  · rw [if_pos heq]
    split <;> simp_all <;> omega
  · rw [if_neg heq]
    split <;> simp_all <;> omega

/-- `poll` keeps `size_` fixed and both cursors inside `[0, size_)`. -/
theorem poll_bounds (q : producer_consumer_queue α)
    (hs : q.size_ < U32) (h2 : q.readIndex_ < q.size_)
    (h3 : q.writeIndex_ < q.size_) :
    (poll q).2.size_ = q.size_ ∧
    (poll q).2.readIndex_ < q.size_ ∧
    (poll q).2.writeIndex_ < q.size_ := by
  have hr1 : (q.readIndex_ + 1) % U32 = q.readIndex_ + 1 :=
    Nat.mod_eq_of_lt (by omega)
  simp only [poll, hr1]
  by_cases he : q.readIndex_ = q.writeIndex_
  · rw [if_pos he]; exact ⟨rfl, h2, h3⟩
  · rw [if_neg he]
    by_cases heq : q.readIndex_ + 1 = q.size_
    · rw [if_pos heq]
      exact ⟨rfl, by show (0 : Nat) < q.size_; omega, h3⟩
    · rw [if_neg heq]
      exact ⟨rfl, by show q.readIndex_ + 1 < q.size_; omega, h3⟩

/-- Every reachable state of a queue with non-wrapping capacity `n + 1` has
that capacity stored and both cursors inside `[0, n + 1)`. -/
theorem reach_bounds (n : Nat) (g : Nat → α) (q : producer_consumer_queue α)
    (hn : n + 1 < U32) (hq : Reach n g q) :
    q.size_ = n + 1 ∧ q.readIndex_ < n + 1 ∧ q.writeIndex_ < n + 1 := by
  induction hq with
  | init =>
    refine ⟨?_, ?_, ?_⟩ <;> simp [mk', Nat.mod_eq_of_lt hn]
  | emp v hq ih =>
    obtain ⟨h1, h2, h3⟩ := ih
    have := emplace_bounds _ v (h1 ▸ hn) (h1 ▸ h2) (h1 ▸ h3)
    rw [h1] at this
    exact this
  | pol hq ih =>
    obtain ⟨h1, h2, h3⟩ := ih
    have := poll_bounds _ (h1 ▸ hn) (h1 ▸ h2) (h1 ▸ h3)
    rw [h1] at this
    exact this

/-- Circular distance from `r` to `w` in a ring of `s` slots: the number of
live slots when the cursors are `r` and `w`. -/
def circDist (s r w : Nat) : Nat :=
  if r ≤ w then w - r else w + s - r

/-- Membership in the half-open circular slot range `[r, w)` of a ring with
`s` slots. -/
def inCircRange (s r w i : Nat) : Bool :=
  if r ≤ w then decide (r ≤ i ∧ i < w)
  else decide (i < w ∨ (r ≤ i ∧ i < s))

/-- The destructor loop visits exactly the slots `(r + k) % s` for
`k < circDist s r w`, in that order, whenever the cursors are in range and the
fuel suffices. -/
theorem destroyLoop_eq (s : Nat) :
    ∀ fuel r w, r < s → w < s → circDist s r w ≤ fuel →
      destroyLoop s fuel r w =
        (List.range (circDist s r w)).map (fun k => (r + k) % s) := by
  intro fuel
  induction fuel with
  | zero =>
    intro r w _ _ hf
    have hd : circDist s r w = 0 := by omega
    simp [destroyLoop, hd]
  | succ fuel ih =>
    intro r w hr hw hf
    by_cases hrw : r = w
    · subst hrw
      have hd : circDist s r r = 0 := by simp [circDist]
      simp [destroyLoop, hd]
    · have hs1 : 1 ≤ s := by omega
      have hr' : (if r + 1 = s then 0 else r + 1) < s := by
        split <;> omega
      have hd : circDist s r w =
          circDist s (if r + 1 = s then 0 else r + 1) w + 1 := by
        simp only [circDist]
        split_ifs <;> omega
      have ihh := ih _ w hr' hw (by omega)
      rw [destroyLoop, if_neg hrw, hd, List.range_succ_eq_map, ihh,
        List.map_cons, List.map_map]
      congr 1
      · show r = (r + 0) % s
        rw [Nat.add_zero, Nat.mod_eq_of_lt hr]
      · apply List.map_congr_left
        intro k _
        simp only [Function.comp_apply]
        have h2 : (if r + 1 = s then 0 else r + 1) = (r + 1) % s := by
          by_cases h : r + 1 = s
          · rw [if_pos h, h, Nat.mod_self]
          · rw [if_neg h, Nat.mod_eq_of_lt (by omega)]
        rw [h2, Nat.mod_add_mod]
        congr 1
        omega

/-- The circular slot list hits exactly the slots of the half-open circular
range `[r, w)`. -/
theorem mem_circSlots (s r w : Nat) (hr : r < s) (hw : w < s) (i : Nat) :
    (i ∈ (List.range (circDist s r w)).map (fun k => (r + k) % s)) ↔
      inCircRange s r w i = true := by
  simp only [List.mem_map, List.mem_range, inCircRange]
  constructor
  · rintro ⟨k, hk, rfl⟩
    by_cases hrw : r ≤ w
    · rw [circDist, if_pos hrw] at hk
      rw [if_pos hrw, Nat.mod_eq_of_lt (by omega), decide_eq_true_eq]
      omega
    · rw [circDist, if_neg hrw] at hk
      rw [if_neg hrw, decide_eq_true_eq]
      by_cases hksr : r + k < s
      · rw [Nat.mod_eq_of_lt hksr]
        omega
      · have h1 : r + k - s < s := by omega
        have h2 : (r + k) % s = r + k - s := by
          rw [Nat.mod_eq_sub_mod (by omega), Nat.mod_eq_of_lt h1]
        rw [h2]
        omega
  · intro h
    by_cases hrw : r ≤ w
    · rw [if_pos hrw, decide_eq_true_eq] at h
      rw [circDist, if_pos hrw]
      exact ⟨i - r, by omega, by rw [show r + (i - r) = i from by omega,
        Nat.mod_eq_of_lt (by omega)]⟩
    · rw [if_neg hrw, decide_eq_true_eq] at h
      rw [circDist, if_neg hrw]
      rcases h with h | h
      · refine ⟨i + s - r, by omega, ?_⟩
        rw [show r + (i + s - r) = i + s from by omega, Nat.add_mod_right,
          Nat.mod_eq_of_lt (by omega)]
      · refine ⟨i - r, by omega, ?_⟩
        rw [show r + (i - r) = i from by omega, Nat.mod_eq_of_lt (by omega)]

/-- The circular slot list has no duplicate slot. -/
theorem nodup_circSlots (s r w : Nat) (hr : r < s) (hw : w < s) :
    ((List.range (circDist s r w)).map (fun k => (r + k) % s)).Nodup := by
  have hd : circDist s r w ≤ s := by
    rw [circDist]; split <;> omega
  refine List.Nodup.map_on ?_ (List.nodup_range _)
  intro k1 h1 k2 h2 heq
  rw [List.mem_range] at h1 h2
  have hmod : k1 % s = k2 % s := Nat.ModEq.add_left_cancel' r heq
  rwa [Nat.mod_eq_of_lt (by omega), Nat.mod_eq_of_lt (by omega)] at hmod

/-- C9: on every reachable state of a `producer_consumer_queue` (capacity
`n + 1` not wrapping `uint32_t`), the destructor's drain loop destroys each
slot of the half-open circular range from the read cursor to the write cursor
exactly once, and no other slot — including wrapped states where the write
cursor has passed zero and the read cursor has not. -/
theorem destruction_drains (n : Nat) (g : Nat → α)
    (q : producer_consumer_queue α) (hn : n + 1 < U32) (hq : Reach n g q)
    (i : Nat) :
    (destroyedSlots q).count i =
      if inCircRange q.size_ q.readIndex_ q.writeIndex_ i then 1 else 0 := by
  obtain ⟨h1, h2, h3⟩ := reach_bounds n g q hn hq
  have hd : circDist q.size_ q.readIndex_ q.writeIndex_ ≤ q.size_ := by
    rw [circDist]; split <;> omega
  rw [destroyedSlots, destroyLoop_eq q.size_ q.size_ _ _ (h1 ▸ h2) (h1 ▸ h3) hd]
  by_cases hmem : inCircRange q.size_ q.readIndex_ q.writeIndex_ i = true
  · rw [if_pos hmem]
    exact List.count_eq_one_of_mem
      (nodup_circSlots _ _ _ (h1 ▸ h2) (h1 ▸ h3))
      ((mem_circSlots _ _ _ (h1 ▸ h2) (h1 ▸ h3) i).2 hmem)
  · rw [if_neg hmem]
    refine List.count_eq_zero_of_not_mem fun hmem' => hmem ?_
    exact (mem_circSlots _ _ _ (h1 ▸ h2) (h1 ▸ h3) i).1 hmem'

/-- A concrete reachable wrapped state of a capacity-5 ring buffer: four
emplaces, three polls, three more emplaces leave `read = 3`, `write = 2`
(the write cursor has wrapped past zero, the read cursor has not). -/
def wrappedState : producer_consumer_queue Nat :=
  (emplace (emplace (emplace
    (poll (poll (poll
      (emplace (emplace (emplace (emplace
        (mk' 4 (fun _ => 0)) 7).2 7).2 7).2 7).2).2).2).2 7).2 7).2 7).2

/-- `wrappedState` is reachable. -/
theorem wrappedState_reach : Reach 4 (fun _ => 0) wrappedState :=
  .emp 7 (.emp 7 (.emp 7 (.pol (.pol (.pol
    (.emp 7 (.emp 7 (.emp 7 (.emp 7 .init)))))))))

/-- Witness for `destruction_drains` at the wrapped state: slot `0` (a live
slot reached only after the cursor wrap) is destroyed exactly once. -/
theorem destruction_drains_witness :
    (destroyedSlots wrappedState).count 0 = 1 := by
  have h := destruction_drains 4 (fun _ => 0) wrappedState
    (by norm_num [U32]) wrappedState_reach 0
  rw [h]
  decide

/-- Reachability is preserved by iterated `emplace`. -/
theorem reach_emplaceRep (n : Nat) (g : Nat → α) (v : α) :
    ∀ k (q : producer_consumer_queue α),
      Reach n g q → Reach n g (emplaceRep v k q) := by
  intro k
  induction k with
  | zero => intro q h; exact h
  | succ k ih => intro q h; exact ih (emplace q v).2 (.emp v h)

/-- C5 counterexample: at requested size `2^32 - 2` (stored capacity
`2^32 - 1`), the state reached by `2^31 + 1` successful emplaces — read
cursor `0`, write cursor `2^31 + 1`, both inside `[0, capacity)` — makes
`size_guess()` return `2^64 - 2^31` (the negative `int` `-2^31` converted to
64-bit `size_t`), which vastly exceeds `max_size() = 2^32 - 2`. -/
theorem size_guess_exceeds_bound :
    Reach (2 ^ 32 - 2) (fun _ => (0 : Nat))
      (emplaceRep 0 (2 ^ 31 + 1) (mk' (2 ^ 32 - 2) (fun _ => 0))) ∧
    (emplaceRep (0 : Nat) (2 ^ 31 + 1)
      (mk' (2 ^ 32 - 2) (fun _ => 0))).readIndex_ = 0 ∧
    (emplaceRep (0 : Nat) (2 ^ 31 + 1)
      (mk' (2 ^ 32 - 2) (fun _ => 0))).writeIndex_ = 2 ^ 31 + 1 ∧
    (emplaceRep (0 : Nat) (2 ^ 31 + 1)
      (mk' (2 ^ 32 - 2) (fun _ => 0))).size_ = 2 ^ 32 - 1 ∧
    size_guess (emplaceRep (0 : Nat) (2 ^ 31 + 1)
      (mk' (2 ^ 32 - 2) (fun _ => 0))) = 2 ^ 64 - 2 ^ 31 ∧
    max_size (emplaceRep (0 : Nat) (2 ^ 31 + 1)
      (mk' (2 ^ 32 - 2) (fun _ => 0))) = 2 ^ 32 - 2 ∧
    2 ^ 64 - 2 ^ 31 > 2 ^ 32 - 2 := by
  obtain ⟨h1, h2, h3⟩ := emplaceRep_fresh (2 ^ 32 - 2) (fun _ => 0) 0
    (by norm_num [U32]) (2 ^ 31 + 1) (by norm_num)
  refine ⟨reach_emplaceRep _ _ _ _ _ .init, h2, h3, by rw [h1]; norm_num,
    ?_, ?_, by norm_num⟩
  · rw [size_guess, h1, h2, h3]
    norm_num [U32, U64, toInt32, intToSizeT]
    rfl
  · rw [max_size, h1]
    norm_num [U64]

/-- For cursors in range and capacity at most `2^31`, `size_guess` computes
exactly the circular distance from the read cursor to the write cursor (the
true element count): the negative-`int` detour is fully corrected. -/
theorem size_guess_eval (s r w : Nat) (g : Nat → α)
    (hs31 : s ≤ 2 ^ 31) (hr : r < s) (hw : w < s) :
    size_guess ⟨s, g, r, w⟩ = circDist s r w := by
  have e32 : U32 = 2 ^ 32 := rfl
  have e64 : U64 = 2 ^ 64 := rfl
  have hrU : r % U32 = r := Nat.mod_eq_of_lt (by omega)
  have hwU : w % U32 = w := Nat.mod_eq_of_lt (by omega)
  simp only [size_guess, hrU, hwU]
  by_cases hcase : r ≤ w
  · -- no wrap: the subtraction does not go negative
    have hu : (w + U32 - r) % U32 = w - r := by
      rw [show w + U32 - r = U32 + (w - r) from by omega, Nat.add_mod_left,
        Nat.mod_eq_of_lt (by omega)]
    rw [hu]
    have h1 : toInt32 (w - r) = ((w - r : Nat) : Int) := by
      rw [toInt32, if_pos (by omega)]
    rw [h1, if_neg (not_lt.mpr (Int.natCast_nonneg _))]
    have hlt : w - r < U64 := by omega
    rw [intToSizeT, Int.emod_eq_of_lt (Int.natCast_nonneg _)
      (by exact_mod_cast hlt), Int.toNat_natCast, circDist, if_pos hcase]
  · -- wrapped: the `int` intermediate is negative and gets corrected
    have hu : (w + U32 - r) % U32 = w + U32 - r :=
      Nat.mod_eq_of_lt (by omega)
    rw [hu]
    have hti : toInt32 (w + U32 - r) =
        ((w + U32 - r : Nat) : Int) - (U32 : Int) := by
      rw [toInt32, if_neg (by omega)]
    rw [hti, if_pos (by omega :
      ((w + U32 - r : Nat) : Int) - (U32 : Int) < 0)]
    have hu2 : (w + U32 - r + s) % U32 = w + s - r := by
      rw [show w + U32 - r + s = U32 + (w + s - r) from by omega,
        Nat.add_mod_left, Nat.mod_eq_of_lt (by omega)]
    rw [hu2]
    have h2 : toInt32 (w + s - r) = ((w + s - r : Nat) : Int) := by
      rw [toInt32, if_pos (by omega)]
    rw [h2]
    have hlt2 : w + s - r < U64 := by omega
    rw [intToSizeT, Int.emod_eq_of_lt (Int.natCast_nonneg _)
      (by exact_mod_cast hlt2), Int.toNat_natCast, circDist, if_neg hcase]

/-- C5 (amended): on every reachable state of a `producer_consumer_queue`
whose stored capacity `n + 1` is at most `2^31`, `size_guess()` is a `size_t`
value (hence never negative) that never exceeds `max_size()`.  (For larger
capacities the claim fails; see the counterexample.) -/
theorem size_guess_bounded (n : Nat) (g : Nat → α)
    (q : producer_consumer_queue α) (hcap : n + 1 ≤ 2 ^ 31)
    (hq : Reach n g q) :
    size_guess q ≤ max_size q := by
  have e32 : U32 = 2 ^ 32 := rfl
  have e64 : U64 = 2 ^ 64 := rfl
  have hn : n + 1 < U32 := by omega
  obtain ⟨h1, h2, h3⟩ := reach_bounds n g q hn hq
  have hms : max_size q = n := by
    rw [max_size, h1, show n + 1 + U64 - 1 = U64 + n from by omega,
      Nat.add_mod_left, Nat.mod_eq_of_lt (by omega)]
  have heval : size_guess q = circDist q.size_ q.readIndex_ q.writeIndex_ :=
    size_guess_eval q.size_ q.readIndex_ q.writeIndex_ q.records_
      (by omega) (by omega) (by omega)
  rw [heval, hms, h1, circDist]
  split_ifs <;> omega

/-- Witness for `size_guess_bounded`: capacity 2, one element emplaced. -/
theorem size_guess_bounded_witness :
    (1 + 1 ≤ 2 ^ 31) ∧
    size_guess (emplace (mk' 1 (fun _ => (0 : Nat))) 5).2 ≤
      max_size (emplace (mk' 1 (fun _ => (0 : Nat))) 5).2 :=
  ⟨by norm_num, size_guess_bounded 1 (fun _ => 0) _ (by norm_num) (.emp 5 .init)⟩

/-- One ring-buffer operation of a producer/consumer trace. -/
inductive Op (α : Type) where
  | emp (v : α)
  | pol
  deriving DecidableEq

/-- The observable result of one operation: the `Bool` returned by `emplace`
or the optional value returned by `poll`. -/
inductive OpResult (α : Type) where
  | emp (ok : Bool)
  | pol (r : Option α)
  deriving DecidableEq

/-- Run a list of operations on the ring buffer, collecting the observable
results. -/
def runPCQ :
    producer_consumer_queue α → List (Op α) →
      List (OpResult α) × producer_consumer_queue α
  | q, [] => ([], q)
  | q, Op.emp v :: rest =>
    let r := emplace q v
    let res := runPCQ r.2 rest
    (OpResult.emp r.1 :: res.1, res.2)
  | q, Op.pol :: rest =>
    let r := poll q
    let res := runPCQ r.2 rest
    (OpResult.pol r.1 :: res.1, res.2)

/-- Run the same operations on the ideal FIFO list queue: `emplace` appends
at the tail (always succeeding), `poll` pops the head. -/
def runList :
    List α → List (Op α) → List (OpResult α) × List α
  | L, [] => ([], L)
  | L, Op.emp v :: rest =>
    let res := runList (L ++ [v]) rest
    (OpResult.emp true :: res.1, res.2)
  | [], Op.pol :: rest =>
    let res := runList [] rest
    (OpResult.pol none :: res.1, res.2)
  | x :: xs, Op.pol :: rest =>
    let res := runList xs rest
    (OpResult.pol (some x) :: res.1, res.2)

/-- Every `emplace` in the result trace returned `true`. -/
def allOk : List (OpResult α) → Bool
  | [] => true
  | OpResult.emp ok :: rest => ok && allOk rest
  | OpResult.pol _ :: rest => allOk rest

/-- Refinement invariant tying a ring-buffer state to the list `L` of its
live elements, oldest first: fixed capacity `s`, read cursor in range, write
cursor determined by the read cursor and the element count, and slot
`(read + k) % s` holding the `k`-th element. -/
def InvR (s : Nat) (q : producer_consumer_queue α) (L : List α) : Prop :=
  q.size_ = s ∧ q.readIndex_ < s ∧
  q.writeIndex_ = (q.readIndex_ + L.length) % s ∧
  L.length < s ∧
  ∀ k, k < L.length → L[k]? = some (q.records_ ((q.readIndex_ + k) % s))

/-- `emplace` in terms of the in-range wrap `(w + 1) % size_`. -/
theorem emplace_spec (q : producer_consumer_queue α) (v : α)
    (hs : q.size_ < U32) (hw : q.writeIndex_ < q.size_) :
    emplace q v =
      if (q.writeIndex_ + 1) % q.size_ = q.readIndex_ then (false, q)
      else
        (true,
          { q with
            records_ := fun i => if i = q.writeIndex_ then v
              else q.records_ i,
            writeIndex_ := (q.writeIndex_ + 1) % q.size_ }) := by
  have h0 : (q.writeIndex_ + 1) % U32 = q.writeIndex_ + 1 :=
    Nat.mod_eq_of_lt (by omega)
  have h1 : (if q.writeIndex_ + 1 = q.size_ then 0 else q.writeIndex_ + 1) =
      (q.writeIndex_ + 1) % q.size_ := by
    by_cases h : q.writeIndex_ + 1 = q.size_
    · rw [if_pos h, h, Nat.mod_self]
    · rw [if_neg h, Nat.mod_eq_of_lt (by omega)]
  simp only [emplace, h0, h1]
  by_cases h : (q.writeIndex_ + 1) % q.size_ = q.readIndex_
  · rw [if_neg (by simpa using h), if_pos h]
  · rw [if_pos h, if_neg h]

/-- `poll` in terms of the in-range wrap `(r + 1) % size_`. -/
theorem poll_spec (q : producer_consumer_queue α)
    (hs : q.size_ < U32) (hr : q.readIndex_ < q.size_) :
    poll q =
      if q.readIndex_ = q.writeIndex_ then (none, q)
      else
        (some (q.records_ q.readIndex_),
          { q with readIndex_ := (q.readIndex_ + 1) % q.size_ }) := by
  have h0 : (q.readIndex_ + 1) % U32 = q.readIndex_ + 1 :=
    Nat.mod_eq_of_lt (by omega)
  have h1 : (if q.readIndex_ + 1 = q.size_ then 0 else q.readIndex_ + 1) =
      (q.readIndex_ + 1) % q.size_ := by
    by_cases h : q.readIndex_ + 1 = q.size_
    · rw [if_pos h, h, Nat.mod_self]
    · rw [if_neg h, Nat.mod_eq_of_lt (by omega)]
  simp only [poll, h0, h1]

/-- A successful `emplace` extends the abstraction list by the new value. -/
theorem InvR_emplace (s : Nat) (hsU : s < U32)
    (q : producer_consumer_queue α) (L : List α) (h : InvR s q L) (v : α)
    (hok : (emplace q v).1 = true) :
    InvR s (emplace q v).2 (L ++ [v]) := by
  obtain ⟨h1, h2, h3, h4, h5⟩ := h
  have hw : q.writeIndex_ < s := by
    rw [h3]; exact Nat.mod_lt _ (by omega)
  have hspec := emplace_spec q v (by omega) (by omega)
  rw [h1] at hspec
  rw [hspec] at hok ⊢
  by_cases hfull : (q.writeIndex_ + 1) % s = q.readIndex_
  · rw [if_pos hfull] at hok
    exact absurd hok (by simp)
  · rw [if_neg hfull] at hok ⊢
    have hlen1 : L.length + 1 < s := by
      rcases Nat.lt_or_ge (L.length + 1) s with h | h
      · exact h
      · exfalso
        apply hfull
        rw [h3, Nat.mod_add_mod,
          show q.readIndex_ + L.length + 1 = q.readIndex_ + s from by omega,
          Nat.add_mod_right, Nat.mod_eq_of_lt h2]
    refine ⟨rfl, h2, ?_, ?_, ?_⟩
    · show (q.writeIndex_ + 1) % s =
        (q.readIndex_ + (L ++ [v]).length) % s
      rw [List.length_append, List.length_singleton, h3, Nat.mod_add_mod,
        Nat.add_assoc]
    · show (L ++ [v]).length < s
      rw [List.length_append, List.length_singleton]
      omega
    · intro k hk
      rw [List.length_append, List.length_singleton] at hk
      show (L ++ [v])[k]? =
        some (if (q.readIndex_ + k) % s = q.writeIndex_ then v
          else q.records_ ((q.readIndex_ + k) % s))
      rcases Nat.lt_or_ge k L.length with hkl | hkl
      · have hne : (q.readIndex_ + k) % s ≠ q.writeIndex_ := by
          rw [h3]
          intro heq
          have hc : k % s = L.length % s :=
            Nat.ModEq.add_left_cancel' q.readIndex_ heq
          rw [Nat.mod_eq_of_lt (by omega), Nat.mod_eq_of_lt (by omega)] at hc
          omega
        rw [List.getElem?_append_left hkl, if_neg hne]
        exact h5 k hkl
      · have hkeq : k = L.length := by omega
        subst hkeq
        have heq : (q.readIndex_ + L.length) % s = q.writeIndex_ := h3.symm
        rw [List.getElem?_concat_length, if_pos heq]

/-- On an empty abstraction list, `poll` returns `none` and changes nothing. -/
theorem InvR_poll_nil (s : Nat) (q : producer_consumer_queue α)
    (h : InvR s q []) : poll q = (none, q) := by
  obtain ⟨h1, h2, h3, h4, h5⟩ := h
  rw [List.length_nil, Nat.add_zero, Nat.mod_eq_of_lt h2] at h3
  simp only [poll]
  rw [if_pos h3.symm]

/-- On a non-empty abstraction list, `poll` returns the head and the
invariant continues with the tail. -/
theorem InvR_poll_cons (s : Nat) (hsU : s < U32)
    (q : producer_consumer_queue α) (x : α) (xs : List α)
    (h : InvR s q (x :: xs)) :
    (poll q).1 = some x ∧ InvR s (poll q).2 xs := by
  obtain ⟨h1, h2, h3, h4, h5⟩ := h
  rw [List.length_cons] at h3 h4
  have hner : q.readIndex_ ≠ q.writeIndex_ := by
    rw [h3]
    intro heq
    by_cases hc : q.readIndex_ + (xs.length + 1) < s
    · rw [Nat.mod_eq_of_lt hc] at heq
      omega
    · rw [Nat.mod_eq_sub_mod (by omega), Nat.mod_eq_of_lt (by omega)] at heq
      omega
  have hspec := poll_spec q (by omega) (by omega)
  rw [h1] at hspec
  rw [hspec, if_neg hner]
  have hx : some x = some (q.records_ q.readIndex_) := by
    have := h5 0 (by simp only [List.length_cons]; omega)
    simpa [Nat.mod_eq_of_lt h2] using this
  refine ⟨hx.symm, rfl, Nat.mod_lt _ (by omega), ?_, by omega, ?_⟩
  · show q.writeIndex_ = ((q.readIndex_ + 1) % s + xs.length) % s
    rw [h3, Nat.mod_add_mod]
    congr 1
    omega
  · intro k hk
    show xs[k]? = some (q.records_ (((q.readIndex_ + 1) % s + k) % s))
    rw [Nat.mod_add_mod, show q.readIndex_ + 1 + k = q.readIndex_ + (k + 1)
      from by omega]
    have := h5 (k + 1) (by simp only [List.length_cons]; omega)
    simpa using this

/-- Simulation: as long as every `emplace` succeeds, the ring buffer produces
exactly the observable results of the ideal FIFO list queue. -/
theorem runPCQ_eq_runList (s : Nat) (hsU : s < U32) :
    ∀ (ops : List (Op α)) (q : producer_consumer_queue α) (L : List α),
      InvR s q L → allOk (runPCQ q ops).1 = true →
      (runPCQ q ops).1 = (runList L ops).1 := by
  intro ops
  induction ops with
  | nil => intro q L _ _; simp [runPCQ, runList]
  | cons op rest ih =>
    intro q L hInv hok
    cases op with
    | emp v =>
      simp only [runPCQ, allOk, Bool.and_eq_true] at hok
      obtain ⟨hb, hrest⟩ := hok
      have hInv' := InvR_emplace s hsU q L hInv v hb
      simp only [runPCQ, runList, hb]
      exact congrArg _ (ih (emplace q v).2 (L ++ [v]) hInv' hrest)
    | pol =>
      cases L with
      | nil =>
        have hpoll := InvR_poll_nil s q hInv
        simp only [runPCQ, allOk, hpoll] at hok
        simp only [runPCQ, runList, hpoll]
        exact congrArg _ (ih q [] hInv hok)
      | cons x xs =>
        obtain ⟨hval, hInv'⟩ := InvR_poll_cons s hsU q x xs hInv
        simp only [runPCQ, allOk] at hok
        simp only [runPCQ, runList, hval]
        exact congrArg _ (ih (poll q).2 xs hInv' hok)

/-- C3: for every operation sequence on a freshly constructed
`producer_consumer_queue` (capacity `n + 1` not wrapping `uint32_t`) in which
every `emplace` succeeds, the observable results — in particular the values
returned by successful `poll`s — are exactly those of the ideal FIFO list
queue run on the same sequence: elements come out in insertion order, none
lost, none duplicated. -/
theorem fifo_refinement (n : Nat) (g : Nat → α) (ops : List (Op α))
    (hn : n + 1 < U32)
    (hok : allOk (runPCQ (mk' n g) ops).1 = true) :
    (runPCQ (mk' n g) ops).1 = (runList [] ops).1 := by
  apply runPCQ_eq_runList (n + 1) hn ops _ _ ?_ hok
  refine ⟨?_, ?_, ?_, ?_, ?_⟩
  · show (n + 1) % U32 = n + 1
    exact Nat.mod_eq_of_lt hn
  · show (0 : Nat) < n + 1
    omega
  · show (0 : Nat) = (0 + List.length []) % (n + 1)
    simp
  · show List.length ([] : List α) < n + 1
    simp
  · intro k hk
    simp at hk

/-- Witness for `fifo_refinement`: capacity 2, a trace of three interleaved
emplaces (values 5, 6, 7) and four polls, all emplaces succeeding. -/
theorem fifo_refinement_witness :
    (2 + 1 < U32 ∧
      allOk (runPCQ (mk' 2 (fun _ => 0))
        [Op.emp 5, Op.emp 6, Op.pol, Op.emp 7, Op.pol, Op.pol,
          Op.pol]).1 = true) ∧
    (runPCQ (mk' 2 (fun _ => 0))
        [Op.emp 5, Op.emp 6, Op.pol, Op.emp 7, Op.pol, Op.pol, Op.pol]).1 =
      (runList []
        [Op.emp 5, Op.emp 6, Op.pol, Op.emp 7, Op.pol, Op.pol, Op.pol]).1 :=
  ⟨⟨by norm_num [U32], by decide⟩,
    fifo_refinement 2 (fun _ => 0)
      [Op.emp 5, Op.emp 6, Op.pol, Op.emp 7, Op.pol, Op.pol, Op.pol]
      (by norm_num [U32]) (by decide)⟩
